import Mathlib

/-!
Shallow embedding of the `simplemerkle` package (`util/simplemerkle/merkle.go`)
of the pactus repository, together with proofs about its Merkle-tree
construction.

Modelling conventions:
* `hash.Hash` (a 32-byte digest) is modelled generically: the tree algorithm
  is stated over an arbitrary digest type `α` with an arbitrary pair-hashing
  function `hp : α → α → α` standing for `HashMerkleBranches`; the byte-level
  `HashMerkleBranches` itself is modelled concretely over `Digest` (length-32
  byte lists) with the external hash function `hasher` as a parameter
  (the Go code binds it through a package-level variable).
* Go slices of `*hash.Hash` become `List (Option α)`; a `nil` pointer is
  `none`.  Reads `merkles[i]` become `List.getD i none`, writes become
  `List.set`.
* `hash.UndefHash` is modelled as a parameter `undef : α`.
* The Go `for` loop of `NewTreeFromHashes` becomes the tail-recursive
  `buildLoop`; an explicit fuel argument (instantiated with the array size,
  which always exceeds the number of iterations) makes the recursion
  structural, while the loop's own exit test `i < arraySize-1` is kept
  verbatim as the guard `i + 1 < merkles.length`.
* `uint(math.Log2(float64(n)))` is modelled as the exact floor of the base-2
  logarithm, computed by the fuel-based `floorLog2` (fuel `n` suffices since
  the argument halves each step).
-/

namespace SimpleMerkle

/-- Byte strings (`[]byte`) are lists of naturals; the `< 256` bound is
irrelevant to the algorithm and not enforced. -/
abbrev Bytes := List Nat

/-- `hash.HashSize` from the external crypto package: digests are 32 bytes. -/
def HashSize : Nat := 32

/-- `hash.Hash`: a fixed-size digest, a byte sequence of length `HashSize`. -/
def Digest := { l : Bytes // l.length = HashSize }

/-- `type Tree struct { merkles []*hash.Hash }`: a flat array of optional
digest slots. -/
structure Tree (α : Type) where
  merkles : List (Option α)

variable {α : Type}

/-- The `switch` body of the build loop of `NewTreeFromHashes`: absent left
child gives an absent parent; a lone left child is hashed with itself;
otherwise the two children are hashed together. -/
def combineOpt (hp : α → α → α) : Option α → Option α → Option α
  | none, _ => none
  | some l, none => some (hp l l)
  | some l, some r => some (hp l r)

/-- `uint(math.Log2(float64(n)))` modelled exactly as the floor of the base-2
logarithm.  The first argument is fuel; since the value halves at each step,
fuel `n` is always enough for argument `n`. -/
def floorLog2 : Nat → Nat → Nat
  | 0, _ => 0
  | fuel + 1, n => if 2 ≤ n then floorLog2 fuel (n / 2) + 1 else 0

/-- `nextPowerOfTwo` from the source: returns `n` when `n&(n-1) == 0`,
otherwise `1 << (uint(math.Log2(float64(n))) + 1)`. -/
def nextPowerOfTwo (n : Nat) : Nat :=
  if n &&& (n - 1) = 0 then n
  else 2 ^ (floorLog2 n n + 1)

/-- The `for` loop of `NewTreeFromHashes`: while `i < arraySize - 1`
(equivalently `i + 1 < merkles.length`), write the combination of slots
`i` and `i+1` into slot `offset`, then advance `i` by two and `offset` by
one.  The fuel argument only bounds the number of iterations. -/
def buildLoop (hp : α → α → α) : Nat → List (Option α) → Nat → Nat → List (Option α)
  | 0, merkles, _, _ => merkles
  | fuel + 1, merkles, i, offset =>
    if i + 1 < merkles.length then
      buildLoop hp fuel
        (merkles.set offset (combineOpt hp (merkles.getD i none) (merkles.getD (i + 1) none)))
        (i + 2) (offset + 1)
    else merkles

/-- `NewTreeFromHashes`: empty input gives no tree (`nil`); otherwise allocate
`2*nextPoT - 1` slots, place the inputs in the leading slots (the rest stay
absent), and run the build loop starting at pair `(0,1)` with write offset
`nextPoT`. -/
def NewTreeFromHashes (hp : α → α → α) (hashes : List α) : Option (Tree α) :=
  if hashes.length = 0 then none
  else
    let nextPoT := nextPowerOfTwo hashes.length
    let arraySize := nextPoT * 2 - 1
    let merkles := hashes.map some ++ List.replicate (arraySize - hashes.length) none
    some ⟨buildLoop hp arraySize merkles 0 nextPoT⟩

/-- Go's `copy(dst[start:], src)`: overwrite `dst` from position `start` with
bytes of `src`, copying `min (length src) (length dst - start)` bytes. -/
def copyInto (dst : Bytes) (start : Nat) (src : Bytes) : Bytes :=
  dst.take start ++ src.take (min src.length (dst.length - start)) ++
    dst.drop (start + min src.length (dst.length - start))

/-- `HashMerkleBranches`: fill a zeroed buffer of twice the digest size with
the left digest's bytes followed by the right digest's bytes and hash it. -/
def HashMerkleBranches (hasher : Bytes → Digest) (left right : Digest) : Digest :=
  hasher (copyInto (copyInto (List.replicate (HashSize * 2) 0) 0 left.val) HashSize right.val)

/-- `NewTreeFromSlices`: hash every payload with the package hash function,
then build the tree from the digests (the tree itself combines nodes with
`HashMerkleBranches` over the same hash function). -/
def NewTreeFromSlices (hasher : Bytes → Digest) (slices : List Bytes) : Option (Tree Digest) :=
  NewTreeFromHashes (HashMerkleBranches hasher) (slices.map hasher)

/-- `Root()`: `UndefHash` for a `nil` tree, otherwise the last slot's value,
falling back to `UndefHash` when that slot is absent. -/
def Root (undef : α) : Option (Tree α) → α
  | none => undef
  | some tree =>
    match tree.merkles.getD (tree.merkles.length - 1) none with
    | some h => h
    | none => undef

/-- `Depth()`: `0` for a `nil` tree, otherwise
`int(math.Log2(float64(len(tree.merkles))))` (the logarithm modelled exactly
by `floorLog2`). -/
def Depth : Option (Tree α) → Nat
  | none => 0
  | some tree => floorLog2 tree.merkles.length tree.merkles.length

/-- The node array of a possibly absent tree (empty for a `nil` tree); a
projection used to state theorems without existentials. -/
def nodesOf : Option (Tree α) → List (Option α)
  | none => []
  | some tree => tree.merkles

/-- Modelled from the spec: one level of the recursively defined
duplicate-odd-leaf Merkle root — hash consecutive pairs, hashing a lone
trailing element with itself. -/
def pairUp (hp : α → α → α) : List α → List α
  | [] => []
  | [a] => [hp a a]
  | a :: b :: rest => hp a b :: pairUp hp rest

/-- Modelled from the spec: the recursively defined duplicate-odd-leaf Merkle
root — a singleton is its own root, otherwise pair up and recurse.  Fuel-based;
the list length is always sufficient fuel because `pairUp` shrinks any list of
length at least two. -/
def merkleRootAux (hp : α → α → α) (undef : α) : Nat → List α → α
  | _, [x] => x
  | 0, _ => undef
  | fuel + 1, l => merkleRootAux hp undef fuel (pairUp hp l)

/-- Modelled from the spec: the duplicate-odd-leaf Merkle root of a list of
digests (`undef` for the empty list). -/
def merkleRootSpec (hp : α → α → α) (undef : α) (l : List α) : α :=
  merkleRootAux hp undef l.length l

/-- The sequence of node values written by the build loop, viewed as a queue
process: repeatedly pop the two front slots and push their combination; the
written values, in order, are exactly the internal-node slots of the final
array. -/
def history (hp : α → α → α) : List (Option α) → List (Option α)
  | a :: b :: rest => combineOpt hp a b :: history hp (rest ++ [combineOpt hp a b])
  | _ => []
termination_by l => l.length
decreasing_by simp

/-- One whole level of pairwise combination on optional slots. -/
def combineLevel (hp : α → α → α) : List (Option α) → List (Option α)
  | a :: b :: rest => combineOpt hp a b :: combineLevel hp rest
  | _ => []

/-- A concrete, injective-enough stand-in for a pair-hashing function on `Nat`,
used to evaluate the generic theorems at concrete inputs. -/
def exampleCombine (a b : Nat) : Nat := 2 * a + 3 * b + 5

/-! ### Elementary facts about the auxiliary functions -/

theorem length_pairUp (hp : α → α → α) : ∀ l : List α, (pairUp hp l).length = (l.length + 1) / 2
  | [] => by simp [pairUp]
  | [_] => by simp [pairUp]
  | _ :: _ :: rest => by
    simp only [pairUp, List.length_cons, length_pairUp hp rest]
    omega

theorem merkleRootAux_nil (hp : α → α → α) (u : α) : ∀ f, merkleRootAux hp u f [] = u
  | 0 => rfl
  | f + 1 => merkleRootAux_nil hp u f

theorem merkleRootAux_fuel (hp : α → α → α) (u : α) :
    ∀ (f₁ f₂ : Nat) (l : List α), l.length ≤ f₁ + 1 → l.length ≤ f₂ + 1 →
      merkleRootAux hp u f₁ l = merkleRootAux hp u f₂ l
  | _, _, [], _, _ => by rw [merkleRootAux_nil, merkleRootAux_nil]
  | f₁, f₂, [x], _, _ => by
    cases f₁ <;> cases f₂ <;> rfl
  | g₁ + 1, g₂ + 1, a :: b :: rest, h₁, h₂ => by
    show merkleRootAux hp u g₁ (pairUp hp (a :: b :: rest))
        = merkleRootAux hp u g₂ (pairUp hp (a :: b :: rest))
    have hl : (pairUp hp (a :: b :: rest)).length = (rest.length + 3) / 2 := by
      rw [length_pairUp]; simp
    simp only [List.length_cons] at h₁ h₂
    exact merkleRootAux_fuel hp u g₁ g₂ _ (by omega) (by omega)
termination_by f₁ f₂ l => l.length
decreasing_by simp [length_pairUp]; omega

theorem merkleRootSpec_pairUp (hp : α → α → α) (u : α) (l : List α) (h : 2 ≤ l.length) :
    merkleRootSpec hp u (pairUp hp l) = merkleRootSpec hp u l := by
  match l, h with
  | a :: b :: rest, _ =>
    show merkleRootAux hp u (pairUp hp (a :: b :: rest)).length (pairUp hp (a :: b :: rest))
        = merkleRootAux hp u (rest.length + 1 + 1) (a :: b :: rest)
    rw [show merkleRootAux hp u (rest.length + 1 + 1) (a :: b :: rest)
        = merkleRootAux hp u (rest.length + 1) (pairUp hp (a :: b :: rest)) from rfl]
    have hl : (pairUp hp (a :: b :: rest)).length = (rest.length + 3) / 2 := by
      rw [length_pairUp]; simp
    exact merkleRootAux_fuel hp u _ _ _ (by omega) (by omega)

theorem history_length (hp : α → α → α) : ∀ q : List (Option α), (history hp q).length = q.length - 1
  | [] => by simp [history]
  | [_] => by simp [history]
  | a :: b :: rest => by
    rw [history]
    have := history_length hp (rest ++ [combineOpt hp a b])
    simp at this ⊢
    omega
termination_by q => q.length
decreasing_by simp

theorem combineLevel_length (hp : α → α → α) :
    ∀ q : List (Option α), (combineLevel hp q).length = q.length / 2
  | [] => by simp [combineLevel]
  | [_] => by simp [combineLevel]
  | _ :: _ :: rest => by
    simp only [combineLevel, List.length_cons, combineLevel_length hp rest]
    omega

theorem floorLog2_bounds :
    ∀ (fuel n : Nat), 1 ≤ n → n ≤ fuel →
      2 ^ floorLog2 fuel n ≤ n ∧ n < 2 ^ (floorLog2 fuel n + 1)
  | 0, n, h₁, h₂ => by omega
  | fuel + 1, n, h₁, h₂ => by
    by_cases h : 2 ≤ n
    · have hrec := floorLog2_bounds fuel (n / 2) (by omega) (by omega)
      simp only [floorLog2, if_pos h]
      constructor
      · calc 2 ^ (floorLog2 fuel (n / 2) + 1) = 2 ^ floorLog2 fuel (n / 2) * 2 := by ring
          _ ≤ (n / 2) * 2 := by omega
          _ ≤ n := by omega
      · have : n < (n / 2) * 2 + 2 := by omega
        calc n < (n / 2) * 2 + 2 := this
          _ ≤ (2 ^ (floorLog2 fuel (n / 2) + 1) - 1) * 2 + 2 := by
              have := hrec.2
              have h2 : n / 2 ≤ 2 ^ (floorLog2 fuel (n / 2) + 1) - 1 := by omega
              omega
          _ ≤ 2 ^ (floorLog2 fuel (n / 2) + 1 + 1) := by
              have : 1 ≤ 2 ^ (floorLog2 fuel (n / 2) + 1) := Nat.one_le_two_pow
              ring_nf
              omega
    · have hn1 : n = 1 := by omega
      subst hn1
      simp [floorLog2]

/-! ### The power-of-two computation -/

theorem and_two_pow_pred (k : Nat) : 2 ^ k &&& (2 ^ k - 1) = 0 := by
  apply Nat.eq_of_testBit_eq
  intro i
  rw [Nat.testBit_and, Nat.zero_testBit]
  by_cases hik : k = i
  · subst hik
    have h1 : (2 ^ k - 1).testBit k = false :=
      Nat.testBit_lt_two_pow (by have := Nat.one_le_two_pow (n := k); omega)
    simp [h1]
  · simp [Nat.testBit_two_pow, hik]

theorem pow_of_and_pred_eq_zero (n : Nat) (h1 : 1 ≤ n) (h : n &&& (n - 1) = 0) :
    n = 2 ^ floorLog2 n n := by
  obtain ⟨hb1, hb2⟩ := floorLog2_bounds n n h1 le_rfl
  set k := floorLog2 n n with hk
  by_contra hne
  have hlt : 2 ^ k ≤ n - 1 := by omega
  have hpow : (0 : Nat) < 2 ^ k := Nat.pos_pow_of_pos k (by omega)
  have hp2 : 2 ^ (k + 1) = 2 ^ k * 2 := by rw [Nat.pow_succ]
  have hdiv1 : n / 2 ^ k = 1 := Nat.div_eq_of_lt_le (by omega) (by omega)
  have hdiv2 : (n - 1) / 2 ^ k = 1 := Nat.div_eq_of_lt_le (by omega) (by omega)
  have ht1 : n.testBit k = true := by
    rw [Nat.testBit_to_div_mod, hdiv1]; decide
  have ht2 : (n - 1).testBit k = true := by
    rw [Nat.testBit_to_div_mod, hdiv2]; decide
  have := Nat.testBit_and n (n - 1) k
  rw [h, Nat.zero_testBit, ht1, ht2] at this
  simp at this

theorem nextPowerOfTwo_spec (n : Nat) (h : 1 ≤ n) :
    n ≤ nextPowerOfTwo n ∧ ∃ k, nextPowerOfTwo n = 2 ^ k ∧ 2 ^ k < 2 * n := by
  unfold nextPowerOfTwo
  by_cases ht : n &&& (n - 1) = 0
  · rw [if_pos ht]
    have hpow := pow_of_and_pred_eq_zero n h ht
    exact ⟨le_rfl, floorLog2 n n, hpow, by rw [← hpow]; omega⟩
  · rw [if_neg ht]
    obtain ⟨hb1, hb2⟩ := floorLog2_bounds n n h le_rfl
    have hne : 2 ^ floorLog2 n n ≠ n := by
      intro he
      exact ht (by rw [← he]; exact and_two_pow_pred _)
    refine ⟨by omega, floorLog2 n n + 1, rfl, ?_⟩
    have : 2 ^ (floorLog2 n n + 1) = 2 ^ floorLog2 n n * 2 := by rw [Nat.pow_succ]
    omega

/-! ### The build loop is a queue process

The loop state `(merkles, i, offset)` always has the form: a processed
prefix `done` (positions below `i`), a pending queue `q` (positions `i` to
`offset - 1`), and unwritten `none` slots.  Each iteration pops the two front
queue elements and appends their combination, so the final array is the
initial queue followed by `history` of that queue. -/

theorem buildLoop_queue (hp : α → α → α) :
    ∀ (fuel : Nat) (done q : List (Option α)), 1 ≤ q.length → q.length - 1 ≤ fuel →
      buildLoop hp fuel (done ++ q ++ List.replicate (q.length - 1) none)
          done.length (done.length + q.length)
        = done ++ q ++ history hp q
  | 0, done, q, h₁, h₂ => by
    obtain ⟨x, rfl⟩ := List.length_eq_one.mp (show q.length = 1 by omega)
    simp [buildLoop, history]
  | _ + 1, done, [], h₁, _ => by simp at h₁
  | fuel + 1, done, [a], _, _ => by
    rw [buildLoop]
    rw [if_neg (by simp)]
    simp [history]
  | fuel + 1, done, a :: b :: rest, h₁, hfuel => by
    have hrep : (a :: b :: rest).length - 1 = rest.length + 1 := by simp
    set c := combineOpt hp a b with hc
    have hget1 : (done ++ (a :: b :: rest) ++ List.replicate (rest.length + 1)
        (none : Option α)).getD done.length none = a := by
      rw [List.getD_append _ _ _ _ (by simp)]
      rw [List.getD_append_right _ _ _ _ (le_refl done.length)]
      simp
    have hget2 : (done ++ (a :: b :: rest) ++ List.replicate (rest.length + 1)
        (none : Option α)).getD (done.length + 1) none = b := by
      rw [List.getD_append _ _ _ _ (by simp)]
      rw [List.getD_append_right _ _ _ _ (by omega)]
      rw [show done.length + 1 - done.length = 1 from by omega]
      simp
    have hset : (done ++ (a :: b :: rest) ++ List.replicate (rest.length + 1)
          (none : Option α)).set (done.length + (a :: b :: rest).length) c
        = (done ++ [a, b]) ++ (rest ++ [c])
            ++ List.replicate ((rest ++ [c]).length - 1) none := by
      rw [List.set_append_right _ _ (by simp)]
      rw [show done.length + (a :: b :: rest).length - (done ++ (a :: b :: rest)).length = 0
        from by simp]
      rw [List.replicate_succ, List.set_cons_zero]
      simp
    rw [hrep, buildLoop]
    rw [if_pos (by simp)]
    rw [hget1, hget2, ← hc, hset]
    rw [show done.length + 2 = (done ++ [a, b]).length from by simp]
    rw [show done.length + (a :: b :: rest).length + 1
        = (done ++ [a, b]).length + (rest ++ [c]).length from by simp; omega]
    rw [buildLoop_queue hp fuel (done ++ [a, b]) (rest ++ [c]) (by simp)
      (by simp at hfuel ⊢; omega)]
    rw [show history hp (a :: b :: rest) = c :: history hp (rest ++ [c]) from by
      rw [history]]
    simp

theorem buildLoop_queue_nil (hp : α → α → α) (fuel L : Nat) (q : List (Option α))
    (hq : q.length = L) (h₁ : 1 ≤ L) (h₂ : L - 1 ≤ fuel) :
    buildLoop hp fuel (q ++ List.replicate (L - 1) none) 0 L = q ++ history hp q := by
  subst hq
  have := buildLoop_queue hp fuel [] q h₁ h₂
  simpa using this

/-- The node array of a tree built from a non-empty input is the padded leaf
level followed by the written internal nodes. -/
theorem nodes_eq (hp : α → α → α) (hashes : List α) (h : hashes ≠ []) :
    nodesOf (NewTreeFromHashes hp hashes)
      = (hashes.map some
          ++ List.replicate (nextPowerOfTwo hashes.length - hashes.length) none)
        ++ history hp (hashes.map some
          ++ List.replicate (nextPowerOfTwo hashes.length - hashes.length) none) := by
  have hn : 1 ≤ hashes.length := List.length_pos.mpr h
  obtain ⟨hle, k, hpow, hlt⟩ := nextPowerOfTwo_spec hashes.length hn
  have hL1 : 1 ≤ nextPowerOfTwo hashes.length := le_trans hn hle
  have q0len : (hashes.map some ++ List.replicate
      (nextPowerOfTwo hashes.length - hashes.length) (none : Option α)).length
      = nextPowerOfTwo hashes.length := by
    simp; omega
  simp only [NewTreeFromHashes]
  rw [if_neg (by omega)]
  simp only [nodesOf]
  rw [show nextPowerOfTwo hashes.length * 2 - 1 - hashes.length
      = (nextPowerOfTwo hashes.length - hashes.length)
        + (nextPowerOfTwo hashes.length - 1) from by omega]
  rw [List.replicate_add, ← List.append_assoc]
  exact buildLoop_queue_nil hp _ _ _ q0len hL1 (by omega)

/-! ### Level structure of the queue process -/

theorem history_append_even (hp : α → α → α) :
    ∀ (q r : List (Option α)), q.length % 2 = 0 →
      history hp (q ++ r) = combineLevel hp q ++ history hp (r ++ combineLevel hp q)
  | [], r, _ => by simp [combineLevel]
  | [_], _, h => by simp at h
  | a :: b :: rest, r, h => by
    rw [show (a :: b :: rest) ++ r = a :: b :: (rest ++ r) from by simp]
    rw [show history hp (a :: b :: (rest ++ r))
        = combineOpt hp a b :: history hp ((rest ++ r) ++ [combineOpt hp a b]) from by
      rw [history]]
    rw [List.append_assoc]
    rw [history_append_even hp rest ((r ++ [combineOpt hp a b])) (by simp at h ⊢; omega)]
    rw [show combineLevel hp (a :: b :: rest)
        = combineOpt hp a b :: combineLevel hp rest from rfl]
    simp

theorem getLast?_levels (hp : α → α → α) :
    ∀ (k : Nat) (q : List (Option α)), q.length = 2 ^ k →
      (q ++ history hp q).getLast? = ((combineLevel hp)^[k] q).getLast?
  | 0, q, h => by
    obtain ⟨x, rfl⟩ := List.length_eq_one.mp (by simpa using h)
    simp [history]
  | k + 1, q, h => by
    have hp2 : 2 ^ (k + 1) = 2 ^ k * 2 := by rw [Nat.pow_succ]
    have hk1 : (1 : Nat) ≤ 2 ^ k := Nat.one_le_two_pow
    have hcll : (combineLevel hp q).length = 2 ^ k := by
      rw [combineLevel_length, h]; omega
    have hne : combineLevel hp q ≠ [] := by
      intro hnil
      rw [hnil] at hcll
      simp at hcll
      omega
    have hstep := history_append_even hp q [] (by rw [h]; omega)
    rw [List.append_nil, List.nil_append] at hstep
    rw [hstep]
    rw [List.getLast?_append_of_ne_nil _ (by
      intro hnil
      rw [List.append_eq_nil] at hnil
      exact hne hnil.1)]
    rw [getLast?_levels hp k (combineLevel hp q) hcll]
    rw [Function.iterate_succ_apply]

theorem combineLevel_replicate_none (hp : α → α → α) :
    ∀ m : Nat, combineLevel hp (List.replicate (2 * m) (none : Option α))
      = List.replicate m none
  | 0 => by simp [combineLevel]
  | m + 1 => by
    rw [show 2 * (m + 1) = 2 + 2 * m from by omega, List.replicate_add]
    rw [show List.replicate 2 (none : Option α) ++ List.replicate (2 * m) none
        = none :: none :: List.replicate (2 * m) none from by simp [List.replicate_succ]]
    rw [show combineLevel hp (none :: none :: List.replicate (2 * m) (none : Option α))
        = combineOpt hp none none :: combineLevel hp (List.replicate (2 * m) none) from rfl]
    rw [combineLevel_replicate_none hp m]
    simp [combineOpt, List.replicate_succ]

theorem combineLevel_pad (hp : α → α → α) :
    ∀ (xs : List α) (p : Nat), (xs.length + p) % 2 = 0 →
      combineLevel hp (xs.map some ++ List.replicate p (none : Option α))
        = (pairUp hp xs).map some
          ++ List.replicate ((xs.length + p) / 2 - (xs.length + 1) / 2) none
  | [], p, h => by
    simp only [List.length_nil, Nat.zero_add] at h
    obtain ⟨m, rfl⟩ : ∃ m, p = 2 * m := ⟨p / 2, by omega⟩
    simp only [List.map_nil, List.nil_append, pairUp]
    rw [combineLevel_replicate_none hp m]
    simp only [List.length_nil]
    congr 1
    omega
  | [x], p, h => by
    simp only [List.length_cons, List.length_nil] at h
    obtain ⟨m, rfl⟩ : ∃ m, p = 2 * m + 1 := ⟨p / 2, by omega⟩
    rw [show List.replicate (2 * m + 1) (none : Option α)
        = none :: List.replicate (2 * m) none from by
      rw [show 2 * m + 1 = 1 + 2 * m from by omega, List.replicate_add]
      simp]
    rw [show ([x].map some) ++ (none :: List.replicate (2 * m) (none : Option α))
        = some x :: none :: List.replicate (2 * m) none from by simp]
    rw [show combineLevel hp (some x :: none :: List.replicate (2 * m) (none : Option α))
        = combineOpt hp (some x) none :: combineLevel hp (List.replicate (2 * m) none)
        from rfl]
    rw [combineLevel_replicate_none hp m]
    rw [show combineOpt hp (some x) none = some (hp x x) from rfl]
    rw [show pairUp hp [x] = [hp x x] from rfl]
    rw [show (([x] : List α).length + (2 * m + 1)) / 2 - (([x] : List α).length + 1) / 2 = m
      from by simp only [List.length_cons, List.length_nil]; omega]
    simp
  | a :: b :: rest, p, h => by
    rw [show ((a :: b :: rest).map some) ++ List.replicate p (none : Option α)
        = some a :: some b :: (rest.map some ++ List.replicate p none) from by simp]
    rw [show combineLevel hp (some a :: some b
          :: (rest.map some ++ List.replicate p (none : Option α)))
        = combineOpt hp (some a) (some b)
          :: combineLevel hp (rest.map some ++ List.replicate p none) from rfl]
    rw [combineLevel_pad hp rest p (by simp at h ⊢; omega)]
    rw [show combineOpt hp (some a) (some b) = some (hp a b) from rfl]
    rw [show pairUp hp (a :: b :: rest) = hp a b :: pairUp hp rest from rfl]
    rw [show ((a :: b :: rest).length + p) / 2 - ((a :: b :: rest).length + 1) / 2
        = (rest.length + p) / 2 - (rest.length + 1) / 2
      from by simp only [List.length_cons]; omega]
    simp

theorem iterate_levels (hp : α → α → α) (u : α) :
    ∀ (k : Nat) (xs : List α), 1 ≤ xs.length → xs.length ≤ 2 ^ k →
      2 ^ k < 2 * xs.length →
      (combineLevel hp)^[k]
          (xs.map some ++ List.replicate (2 ^ k - xs.length) (none : Option α))
        = [some (merkleRootSpec hp u xs)]
  | 0, xs, h₁, h₂, _ => by
    obtain ⟨x, rfl⟩ := List.length_eq_one.mp (show xs.length = 1 by simp at h₂; omega)
    simp [merkleRootSpec, merkleRootAux]
  | k + 1, xs, h₁, h₂, h₃ => by
    have hp2 : 2 ^ (k + 1) = 2 ^ k * 2 := by rw [Nat.pow_succ]
    have hk1 : (1 : Nat) ≤ 2 ^ k := Nat.one_le_two_pow
    have hplen : (pairUp hp xs).length = (xs.length + 1) / 2 := length_pairUp hp xs
    rw [Function.iterate_succ_apply]
    rw [combineLevel_pad hp xs (2 ^ (k + 1) - xs.length) (by omega)]
    rw [show (xs.length + (2 ^ (k + 1) - xs.length)) / 2 - (xs.length + 1) / 2
        = 2 ^ k - (pairUp hp xs).length from by omega]
    rw [iterate_levels hp u k (pairUp hp xs) (by omega) (by omega) (by omega)]
    rw [merkleRootSpec_pairUp hp u xs (by omega)]

/-! ### Slot-level facts about the built array -/

theorem getD_last (l : List (Option α)) :
    l.getD (l.length - 1) none = l.getLast?.getD none := by
  rw [List.getLast?_eq_getElem?, List.getD_eq_getElem?_getD]

theorem map_some_getD_isSome :
    ∀ (l : List α) (i : Nat), i < l.length → ((l.map some).getD i none).isSome = true
  | [], _, h => by simp at h
  | _ :: _, 0, _ => rfl
  | x :: xs, i + 1, h => by
    rw [show ((x :: xs).map some).getD (i + 1) none = (xs.map some).getD i none from by
      simp [List.getD_cons_succ]]
    exact map_some_getD_isSome xs i (by simp at h; omega)

theorem getD_replicate_none :
    ∀ (p j : Nat), (List.replicate p (none : Option α)).getD j none = none
  | 0, _ => by simp
  | _ + 1, 0 => rfl
  | p + 1, j + 1 => by
    rw [List.replicate_succ, List.getD_cons_succ]
    exact getD_replicate_none p j

/-- The total number of slots of the built tree is `2 * nextPoT - 1`. -/
theorem nodes_length (hp : α → α → α) (hashes : List α) (h : hashes ≠ []) :
    (nodesOf (NewTreeFromHashes hp hashes)).length
      = 2 * nextPowerOfTwo hashes.length - 1 := by
  have hn : 1 ≤ hashes.length := List.length_pos.mpr h
  obtain ⟨hle, k, hpow, hlt⟩ := nextPowerOfTwo_spec hashes.length hn
  rw [nodes_eq hp hashes h, List.length_append, history_length]
  simp only [List.length_append, List.length_map, List.length_replicate]
  omega

/-- The last slot of the built tree holds the recursively defined
duplicate-odd-leaf Merkle root of the inputs. -/
theorem root_slot (hp : α → α → α) (u : α) (hashes : List α) (h : hashes ≠ []) :
    (nodesOf (NewTreeFromHashes hp hashes)).getD
        ((nodesOf (NewTreeFromHashes hp hashes)).length - 1) none
      = some (merkleRootSpec hp u hashes) := by
  have hn : 1 ≤ hashes.length := List.length_pos.mpr h
  obtain ⟨hle, k, hpow, hlt⟩ := nextPowerOfTwo_spec hashes.length hn
  have hne := nodes_eq hp hashes h
  rw [hpow] at hne
  rw [hne, getD_last]
  have hq0len : (hashes.map some
      ++ List.replicate (2 ^ k - hashes.length) (none : Option α)).length = 2 ^ k := by
    simp; omega
  rw [getLast?_levels hp k _ hq0len]
  rw [iterate_levels hp u k hashes hn (by omega) (by omega)]
  simp

theorem history_getD (hp : α → α → α) :
    ∀ (q : List (Option α)) (m : Nat), m < (history hp q).length →
      (history hp q).getD m none
        = combineOpt hp ((q ++ history hp q).getD (2 * m) none)
            ((q ++ history hp q).getD (2 * m + 1) none)
  | [], _, hm => by simp [history] at hm
  | [_], _, hm => by simp [history] at hm
  | a :: b :: rest, m, hm => by
    rw [show history hp (a :: b :: rest)
        = combineOpt hp a b :: history hp (rest ++ [combineOpt hp a b]) from by
      rw [history]] at hm ⊢
    match m with
    | 0 => simp [List.cons_append, combineOpt]
    | m + 1 =>
      have hm2 : m < (history hp (rest ++ [combineOpt hp a b])).length := by
        simp at hm
        omega
      rw [List.getD_cons_succ]
      rw [history_getD hp (rest ++ [combineOpt hp a b]) m hm2]
      rw [show (a :: b :: rest) ++ (combineOpt hp a b
            :: history hp (rest ++ [combineOpt hp a b]))
          = a :: b :: ((rest ++ [combineOpt hp a b])
            ++ history hp (rest ++ [combineOpt hp a b])) from by simp]
      rw [show 2 * (m + 1) = 2 * m + 1 + 1 from by omega]
      rw [List.getD_cons_succ, List.getD_cons_succ]
      rw [show 2 * m + 1 + 1 + 1 = 2 * m + 1 + 1 + 1 from rfl]
      rw [show (a :: b :: ((rest ++ [combineOpt hp a b])
            ++ history hp (rest ++ [combineOpt hp a b]))).getD (2 * m + 1 + 1 + 1) none
          = ((rest ++ [combineOpt hp a b])
            ++ history hp (rest ++ [combineOpt hp a b])).getD (2 * m + 1) none from by
        rw [List.getD_cons_succ, List.getD_cons_succ]]
termination_by q m => q.length
decreasing_by simp

/-- Every internal slot of the built array is the combination of its two
children, which sit at positions `2*(p - L)` and `2*(p - L) + 1`. -/
theorem nodes_parent_rule (hp : α → α → α) (hashes : List α) (h : hashes ≠ []) :
    ∀ p, nextPowerOfTwo hashes.length ≤ p →
      p < (nodesOf (NewTreeFromHashes hp hashes)).length →
      (nodesOf (NewTreeFromHashes hp hashes)).getD p none
        = combineOpt hp
            ((nodesOf (NewTreeFromHashes hp hashes)).getD
              (2 * (p - nextPowerOfTwo hashes.length)) none)
            ((nodesOf (NewTreeFromHashes hp hashes)).getD
              (2 * (p - nextPowerOfTwo hashes.length) + 1) none) := by
  intro p hpL hpU
  have hn : 1 ≤ hashes.length := List.length_pos.mpr h
  obtain ⟨hle, k, hpow, hlt⟩ := nextPowerOfTwo_spec hashes.length hn
  have hlen := nodes_length hp hashes h
  have hne := nodes_eq hp hashes h
  have hq0len : (hashes.map some ++ List.replicate
      (nextPowerOfTwo hashes.length - hashes.length) (none : Option α)).length
      = nextPowerOfTwo hashes.length := by
    simp; omega
  rw [hne]
  rw [List.getD_append_right _ _ _ _ (by rw [hq0len]; omega)]
  rw [hq0len]
  rw [history_getD hp _ (p - nextPowerOfTwo hashes.length) (by
    rw [history_length, hq0len]
    omega)]

theorem nodes_leaf_present (hp : α → α → α) (hashes : List α) (h : hashes ≠ []) :
    ∀ i, i < hashes.length →
      ((nodesOf (NewTreeFromHashes hp hashes)).getD i none).isSome = true := by
  intro i hi
  rw [nodes_eq hp hashes h]
  rw [List.getD_append _ _ _ _ (by simp; omega)]
  rw [List.getD_append _ _ _ _ (by simp; omega)]
  exact map_some_getD_isSome hashes i hi

theorem nodes_padding_absent (hp : α → α → α) (hashes : List α) (h : hashes ≠ []) :
    ∀ i, hashes.length ≤ i → i < nextPowerOfTwo hashes.length →
      (nodesOf (NewTreeFromHashes hp hashes)).getD i none = none := by
  intro i hi hiL
  have hn : 1 ≤ hashes.length := List.length_pos.mpr h
  obtain ⟨hle, k, hpow, hlt⟩ := nextPowerOfTwo_spec hashes.length hn
  rw [nodes_eq hp hashes h]
  rw [List.getD_append _ _ _ _ (by simp; omega)]
  rw [List.getD_append_right _ _ _ _ (by simp; omega)]
  exact getD_replicate_none _ _

/-! ### Accessor-level helpers -/

theorem newTree_isSome (hp : α → α → α) (hashes : List α) (h : hashes ≠ []) :
    (NewTreeFromHashes hp hashes).isSome = true := by
  simp only [NewTreeFromHashes]
  rw [if_neg (by simp [h])]
  rfl

theorem root_of_slot (o : Option (Tree α)) (u r : α)
    (hs : o.isSome = true)
    (hslot : (nodesOf o).getD ((nodesOf o).length - 1) none = some r) :
    Root u o = r := by
  cases o with
  | none => simp at hs
  | some t =>
    simp only [nodesOf] at hslot
    show (match t.merkles.getD (t.merkles.length - 1) none with
      | some h => h
      | none => u) = r
    rw [hslot]

theorem combineOpt_eq_none_iff (hp : α → α → α) (x y : Option α) :
    combineOpt hp x y = none ↔ x = none := by
  cases x <;> cases y <;> simp [combineOpt]

theorem depth_of_length (t : Tree α) (k : Nat)
    (h : t.merkles.length = 2 ^ (k + 1) - 1) : Depth (some t) = k := by
  have h1 : (1 : Nat) ≤ 2 ^ k := Nat.one_le_two_pow
  have hp2 : 2 ^ (k + 1) = 2 ^ k * 2 := by rw [Nat.pow_succ]
  have hm1 : 1 ≤ t.merkles.length := by omega
  obtain ⟨hb1, hb2⟩ := floorLog2_bounds t.merkles.length t.merkles.length hm1 le_rfl
  show floorLog2 t.merkles.length t.merkles.length = k
  set d := floorLog2 t.merkles.length t.merkles.length with hd
  rcases Nat.lt_trichotomy d k with hdk | hdk | hdk
  · exfalso
    have hle : 2 ^ (d + 1) ≤ 2 ^ k :=
      Nat.pow_le_pow_right (by norm_num) (by omega)
    omega
  · exact hdk
  · exfalso
    have hle : 2 ^ (k + 1) ≤ 2 ^ d :=
      Nat.pow_le_pow_right (by norm_num) (by omega)
    omega

/-! ### The claims -/

/-- **C1**: for every non-empty input, `NewTreeFromHashes` produces a tree
whose flat array has `2L - 1` slots (`L` the next power of two), every
internal slot at offset `p ≥ L` is the three-rule combination of the pair
`(2(p-L), 2(p-L)+1)`, the root sits in the last slot (index `2L - 2`), and it
equals the recursively defined duplicate-odd-leaf Merkle root of the inputs,
which is also what `Root` returns. -/
theorem claim1_build_root (hp : α → α → α) (undef : α) (hashes : List α)
    (h : hashes ≠ []) :
    (NewTreeFromHashes hp hashes).isSome = true
    ∧ (nodesOf (NewTreeFromHashes hp hashes)).length
        = 2 * nextPowerOfTwo hashes.length - 1
    ∧ (∀ p, nextPowerOfTwo hashes.length ≤ p →
        p < (nodesOf (NewTreeFromHashes hp hashes)).length →
        (nodesOf (NewTreeFromHashes hp hashes)).getD p none
          = combineOpt hp
              ((nodesOf (NewTreeFromHashes hp hashes)).getD
                (2 * (p - nextPowerOfTwo hashes.length)) none)
              ((nodesOf (NewTreeFromHashes hp hashes)).getD
                (2 * (p - nextPowerOfTwo hashes.length) + 1) none))
    ∧ (nodesOf (NewTreeFromHashes hp hashes)).getD
        ((nodesOf (NewTreeFromHashes hp hashes)).length - 1) none
        = some (merkleRootSpec hp undef hashes)
    ∧ Root undef (NewTreeFromHashes hp hashes) = merkleRootSpec hp undef hashes :=
  ⟨newTree_isSome hp hashes h, nodes_length hp hashes h,
    nodes_parent_rule hp hashes h, root_slot hp undef hashes h,
    root_of_slot _ _ _ (newTree_isSome hp hashes h) (root_slot hp undef hashes h)⟩

/-- **C3**: the tree built from a single digest `d` has `Root() = d` (no
hashing) and `Depth() = 0`. -/
theorem claim3_single_leaf (hp : α → α → α) (undef d : α) :
    Root undef (NewTreeFromHashes hp [d]) = d
    ∧ Depth (NewTreeFromHashes hp [d]) = 0 := by
  have h1 : ([d] : List α) ≠ [] := by simp
  constructor
  · have hr := root_of_slot _ undef _ (newTree_isSome hp [d] h1)
      (root_slot hp undef [d] h1)
    rw [hr]
    rfl
  · obtain ⟨t, ht⟩ := Option.isSome_iff_exists.mp (newTree_isSome hp [d] h1)
    have hlen := nodes_length hp [d] h1
    rw [ht] at hlen
    have htm : t.merkles.length = 1 := by
      simp only [nodesOf] at hlen
      rw [hlen]
      rw [show nextPowerOfTwo ([d] : List α).length = 1 from by
        rw [show ([d] : List α).length = 1 from rfl]
        rfl]
    rw [ht]
    show floorLog2 t.merkles.length t.merkles.length = 0
    rw [htm]
    rfl

/-- **C4**: `Depth` of the tree built from `n ≥ 1` digests is `⌈log₂ n⌉`
(`Nat.clog 2 n`), hence `0` for `n ≤ 1`; a `nil` tree has depth `0`; and any
tree with `2^(k+1) - 1` slots has depth `k`. -/
theorem claim4_depth (hp : α → α → α) (hashes : List α) (h : hashes ≠ []) :
    Depth (NewTreeFromHashes hp hashes) = Nat.clog 2 hashes.length
    ∧ (hashes.length ≤ 1 → Depth (NewTreeFromHashes hp hashes) = 0)
    ∧ (∀ (t : Tree α) (k : Nat), t.merkles.length = 2 ^ (k + 1) - 1 →
        Depth (some t) = k)
    ∧ Depth (none : Option (Tree α)) = 0 := by
  have hn : 1 ≤ hashes.length := List.length_pos.mpr h
  obtain ⟨hle, k, hpow, hlt⟩ := nextPowerOfTwo_spec hashes.length hn
  have h1 : (1 : Nat) ≤ 2 ^ k := Nat.one_le_two_pow
  have hp2 : 2 ^ (k + 1) = 2 ^ k * 2 := by rw [Nat.pow_succ]
  have hlen : (nodesOf (NewTreeFromHashes hp hashes)).length = 2 ^ (k + 1) - 1 := by
    rw [nodes_length hp hashes h, hpow]
    omega
  obtain ⟨t, ht⟩ := Option.isSome_iff_exists.mp (newTree_isSome hp hashes h)
  have htm : t.merkles.length = 2 ^ (k + 1) - 1 := by
    rw [ht] at hlen
    simpa [nodesOf] using hlen
  have hdep : Depth (NewTreeFromHashes hp hashes) = k := by
    rw [ht]
    exact depth_of_length t k htm
  have hclog : Nat.clog 2 hashes.length = k := by
    apply le_antisymm
    · exact (Nat.le_pow_iff_clog_le one_lt_two).mp (by omega)
    · rcases Nat.eq_zero_or_pos k with rfl | hk
      · exact Nat.zero_le _
      · have hp3 : 2 ^ k = 2 ^ (k - 1) * 2 := by
          rw [← Nat.pow_succ]
          congr 1
          omega
        have h2 : 2 ^ (k - 1) < hashes.length := by omega
        have := (Nat.pow_lt_iff_lt_clog one_lt_two).mp h2
        omega
  refine ⟨by rw [hdep, hclog], ?_, fun t k hk => depth_of_length t k hk, rfl⟩
  intro hle1
  have : hashes.length = 1 := by omega
  rw [hdep, ← hclog, this]
  exact Nat.clog_one_right 2

/-- **C5**: empty input yields the absent tree from both builders (not an
error), on which `Root` returns the undefined digest and `Depth` returns 0. -/
theorem claim5_empty_input (hp : α → α → α) (undef : α) (hasher : Bytes → Digest) :
    NewTreeFromHashes hp ([] : List α) = none
    ∧ NewTreeFromSlices hasher [] = none
    ∧ Root undef (none : Option (Tree α)) = undef
    ∧ Depth (none : Option (Tree α)) = 0 :=
  ⟨rfl, rfl, rfl, rfl⟩

/-- **C7**: for `n ≥ 1`, `nextPowerOfTwo n` is the least power of two that is
at least `n`; it fixes powers of two and maps `1` to `1`. -/
theorem claim7_next_power_of_two (n : Nat) (h : 1 ≤ n) :
    n ≤ nextPowerOfTwo n
    ∧ (∃ k, nextPowerOfTwo n = 2 ^ k)
    ∧ (∀ j, n ≤ 2 ^ j → nextPowerOfTwo n ≤ 2 ^ j)
    ∧ ((∃ k, n = 2 ^ k) → nextPowerOfTwo n = n)
    ∧ nextPowerOfTwo 1 = 1 := by
  obtain ⟨hle, k, hpow, hlt⟩ := nextPowerOfTwo_spec n h
  refine ⟨hle, ⟨k, hpow⟩, ?_, ?_, rfl⟩
  · intro j hj
    have hj2 : 2 ^ (j + 1) = 2 ^ j * 2 := by rw [Nat.pow_succ]
    have hkj : 2 ^ k < 2 ^ (j + 1) := by omega
    have : k < j + 1 := (Nat.pow_lt_pow_iff_right (by norm_num)).mp hkj
    have := Nat.pow_le_pow_right (show 1 ≤ 2 by norm_num) (show k ≤ j by omega)
    omega
  · rintro ⟨j, rfl⟩
    unfold nextPowerOfTwo
    rw [if_pos (and_two_pow_pred j)]

/-- **C8**: for every non-empty input the array is non-empty and its last
slot is present, holding exactly the digest that `Root` returns — the
undefined-digest fallback of `Root` is unreachable on built trees. -/
theorem claim8_root_never_fallback (hp : α → α → α) (undef : α) (hashes : List α)
    (h : hashes ≠ []) :
    0 < (nodesOf (NewTreeFromHashes hp hashes)).length
    ∧ (nodesOf (NewTreeFromHashes hp hashes)).getD
        ((nodesOf (NewTreeFromHashes hp hashes)).length - 1) none
      = some (Root undef (NewTreeFromHashes hp hashes)) := by
  have hn : 1 ≤ hashes.length := List.length_pos.mpr h
  obtain ⟨hle, k, hpow, hlt⟩ := nextPowerOfTwo_spec hashes.length hn
  refine ⟨by rw [nodes_length hp hashes h]; omega, ?_⟩
  rw [root_of_slot _ undef _ (newTree_isSome hp hashes h)
    (root_slot hp undef hashes h)]
  exact root_slot hp undef hashes h

/-- **C10**: presence invariant of the built array — the first `n` leaf slots
are present, the padding slots up to `L` are absent, an internal slot is
absent exactly when its left child is absent, and the root slot is present. -/
theorem claim10_presence_invariant (hp : α → α → α) (hashes : List α)
    (h : hashes ≠ []) :
    (∀ i, i < hashes.length →
      ((nodesOf (NewTreeFromHashes hp hashes)).getD i none).isSome = true)
    ∧ (∀ i, hashes.length ≤ i → i < nextPowerOfTwo hashes.length →
        (nodesOf (NewTreeFromHashes hp hashes)).getD i none = none)
    ∧ (∀ p, nextPowerOfTwo hashes.length ≤ p →
        p < (nodesOf (NewTreeFromHashes hp hashes)).length →
        ((nodesOf (NewTreeFromHashes hp hashes)).getD p none = none
          ↔ (nodesOf (NewTreeFromHashes hp hashes)).getD
              (2 * (p - nextPowerOfTwo hashes.length)) none = none))
    ∧ ((nodesOf (NewTreeFromHashes hp hashes)).getD
        ((nodesOf (NewTreeFromHashes hp hashes)).length - 1) none).isSome = true := by
  obtain ⟨x, _⟩ : ∃ x xs, hashes = x :: xs := by
    cases hashes with
    | nil => exact absurd rfl h
    | cons x xs => exact ⟨x, xs, rfl⟩
  refine ⟨nodes_leaf_present hp hashes h, nodes_padding_absent hp hashes h, ?_, ?_⟩
  · intro p hpL hpU
    rw [nodes_parent_rule hp hashes h p hpL hpU]
    exact combineOpt_eq_none_iff hp _ _
  · rw [root_slot hp x hashes h]
    rfl

/-! ### Byte-level facts about `HashMerkleBranches` -/

theorem take_32_append (l x : Bytes) (hlen : l.length = 32) : (l ++ x).take 32 = l := by
  rw [← hlen]
  exact List.take_left _ _

theorem take_32_self (l : Bytes) (hlen : l.length = 32) : l.take 32 = l := by
  rw [← hlen, List.take_length]

theorem HashMerkleBranches_concat (hasher : Bytes → Digest) (left right : Digest) :
    HashMerkleBranches hasher left right = hasher (left.val ++ right.val) := by
  have hl : left.val.length = 32 := left.property
  have hr : right.val.length = 32 := right.property
  have hinner : copyInto (List.replicate (HashSize * 2) 0) 0 left.val
      = left.val ++ List.replicate 32 0 := by
    simp only [copyInto, HashSize, List.take_zero, List.length_replicate, List.nil_append]
    rw [hl]
    rw [show min (32 : Nat) (32 * 2 - 0) = 32 from by norm_num]
    rw [take_32_self left.val hl, List.drop_replicate]
  have houter : copyInto (left.val ++ List.replicate 32 0) HashSize right.val
      = left.val ++ right.val := by
    have hdlen : (left.val ++ List.replicate 32 0).length = 64 := by simp [hl]
    simp only [copyInto, HashSize]
    rw [hdlen, hr]
    rw [show min (32 : Nat) (64 - 32) = 32 from by norm_num]
    rw [take_32_append left.val _ hl, take_32_self right.val hr]
    have hdrop : (left.val ++ List.replicate 32 0).drop (32 + 32) = [] :=
      List.drop_eq_nil_of_le (le_of_eq hdlen)
    rw [hdrop]
    simp
  rw [show HashMerkleBranches hasher left right
      = hasher (copyInto (copyInto (List.replicate (HashSize * 2) 0) 0 left.val)
          HashSize right.val) from rfl]
  rw [hinner, houter]

/-- **C6**: `HashMerkleBranches` hashes exactly the left digest's bytes
followed by the right digest's bytes, a buffer of twice the digest length. -/
theorem claim6_hash_pair_concat (hasher : Bytes → Digest) (left right : Digest) :
    HashMerkleBranches hasher left right = hasher (left.val ++ right.val)
    ∧ (left.val ++ right.val).length = 2 * HashSize := by
  refine ⟨HashMerkleBranches_concat hasher left right, ?_⟩
  have hl : left.val.length = 32 := left.property
  have hr : right.val.length = 32 := right.property
  simp [hl, hr, HashSize]

/-- **C2**: the tree over three digests `[a, b, c]` pads the leaf level to 4
slots with the fourth absent, has level-1 nodes `Hash(a‖b)` and `Hash(c‖c)`
(the duplicate rule for the absent fourth leaf), and its root is the hash of
their concatenation. -/
theorem claim2_three_leaves (hasher : Bytes → Digest) (a b c undef : Digest) :
    (nodesOf (NewTreeFromHashes (HashMerkleBranches hasher) [a, b, c])).length = 7
    ∧ (nodesOf (NewTreeFromHashes (HashMerkleBranches hasher) [a, b, c])).getD 3 none
        = none
    ∧ (nodesOf (NewTreeFromHashes (HashMerkleBranches hasher) [a, b, c])).getD 4 none
        = some (hasher (a.val ++ b.val))
    ∧ (nodesOf (NewTreeFromHashes (HashMerkleBranches hasher) [a, b, c])).getD 5 none
        = some (hasher (c.val ++ c.val))
    ∧ Root undef (NewTreeFromHashes (HashMerkleBranches hasher) [a, b, c])
        = hasher ((hasher (a.val ++ b.val)).val ++ (hasher (c.val ++ c.val)).val) := by
  have htree : NewTreeFromHashes (HashMerkleBranches hasher) [a, b, c]
      = some ⟨[some a, some b, some c, none,
          some (HashMerkleBranches hasher a b),
          some (HashMerkleBranches hasher c c),
          some (HashMerkleBranches hasher (HashMerkleBranches hasher a b)
            (HashMerkleBranches hasher c c))]⟩ := by
    simp only [NewTreeFromHashes]
    rw [show ([a, b, c] : List Digest).length = 3 from rfl]
    rfl
  rw [htree]
  simp only [nodesOf, Root]
  refine ⟨rfl, rfl, ?_, ?_, ?_⟩
  · show some (HashMerkleBranches hasher a b) = some (hasher (a.val ++ b.val))
    rw [HashMerkleBranches_concat]
  · show some (HashMerkleBranches hasher c c) = some (hasher (c.val ++ c.val))
    rw [HashMerkleBranches_concat]
  · show HashMerkleBranches hasher (HashMerkleBranches hasher a b)
        (HashMerkleBranches hasher c c)
      = hasher ((hasher (a.val ++ b.val)).val ++ (hasher (c.val ++ c.val)).val)
    rw [HashMerkleBranches_concat, HashMerkleBranches_concat, HashMerkleBranches_concat]

/-! ### Witnesses: the hypothesis-bearing claims evaluated at concrete inputs -/

/-- Witness for C1: the build/root theorem applied to the concrete input
`[5, 7, 9]` with the concrete combining function `exampleCombine`. -/
theorem claim1_build_root_witness :
    (([5, 7, 9] : List Nat) ≠ [])
    ∧ ((NewTreeFromHashes exampleCombine [5, 7, 9]).isSome = true
      ∧ (nodesOf (NewTreeFromHashes exampleCombine [5, 7, 9])).length
          = 2 * nextPowerOfTwo ([5, 7, 9] : List Nat).length - 1
      ∧ (∀ p, nextPowerOfTwo ([5, 7, 9] : List Nat).length ≤ p →
          p < (nodesOf (NewTreeFromHashes exampleCombine [5, 7, 9])).length →
          (nodesOf (NewTreeFromHashes exampleCombine [5, 7, 9])).getD p none
            = combineOpt exampleCombine
                ((nodesOf (NewTreeFromHashes exampleCombine [5, 7, 9])).getD
                  (2 * (p - nextPowerOfTwo ([5, 7, 9] : List Nat).length)) none)
                ((nodesOf (NewTreeFromHashes exampleCombine [5, 7, 9])).getD
                  (2 * (p - nextPowerOfTwo ([5, 7, 9] : List Nat).length) + 1) none))
      ∧ (nodesOf (NewTreeFromHashes exampleCombine [5, 7, 9])).getD
          ((nodesOf (NewTreeFromHashes exampleCombine [5, 7, 9])).length - 1) none
          = some (merkleRootSpec exampleCombine 0 [5, 7, 9])
      ∧ Root 0 (NewTreeFromHashes exampleCombine [5, 7, 9])
          = merkleRootSpec exampleCombine 0 [5, 7, 9]) :=
  ⟨by decide, claim1_build_root exampleCombine 0 [5, 7, 9] (by decide)⟩

/-- Witness for C4: the depth theorem applied to the concrete input
`[5, 7, 9]`. -/
theorem claim4_depth_witness :
    (([5, 7, 9] : List Nat) ≠ [])
    ∧ (Depth (NewTreeFromHashes exampleCombine [5, 7, 9])
        = Nat.clog 2 ([5, 7, 9] : List Nat).length
      ∧ (([5, 7, 9] : List Nat).length ≤ 1 →
          Depth (NewTreeFromHashes exampleCombine [5, 7, 9]) = 0)
      ∧ (∀ (t : Tree Nat) (k : Nat), t.merkles.length = 2 ^ (k + 1) - 1 →
          Depth (some t) = k)
      ∧ Depth (none : Option (Tree Nat)) = 0) :=
  ⟨by decide, claim4_depth exampleCombine [5, 7, 9] (by decide)⟩

/-- Witness for C7: the next-power-of-two theorem applied to `n = 5`. -/
theorem claim7_next_power_of_two_witness :
    (1 : Nat) ≤ 5
    ∧ (5 ≤ nextPowerOfTwo 5
      ∧ (∃ k, nextPowerOfTwo 5 = 2 ^ k)
      ∧ (∀ j, 5 ≤ 2 ^ j → nextPowerOfTwo 5 ≤ 2 ^ j)
      ∧ ((∃ k, (5 : Nat) = 2 ^ k) → nextPowerOfTwo 5 = 5)
      ∧ nextPowerOfTwo 1 = 1) :=
  ⟨by decide, claim7_next_power_of_two 5 (by decide)⟩

/-- Witness for C8: the root-total theorem applied to the concrete input
`[5, 7, 9]`. -/
theorem claim8_root_never_fallback_witness :
    (([5, 7, 9] : List Nat) ≠ [])
    ∧ (0 < (nodesOf (NewTreeFromHashes exampleCombine [5, 7, 9])).length
      ∧ (nodesOf (NewTreeFromHashes exampleCombine [5, 7, 9])).getD
          ((nodesOf (NewTreeFromHashes exampleCombine [5, 7, 9])).length - 1) none
        = some (Root 0 (NewTreeFromHashes exampleCombine [5, 7, 9]))) :=
  ⟨by decide, claim8_root_never_fallback exampleCombine 0 [5, 7, 9] (by decide)⟩

/-- Witness for C10: the presence-invariant theorem applied to the concrete
input `[5, 7, 9]`. -/
theorem claim10_presence_invariant_witness :
    (([5, 7, 9] : List Nat) ≠ [])
    ∧ ((∀ i, i < ([5, 7, 9] : List Nat).length →
        ((nodesOf (NewTreeFromHashes exampleCombine [5, 7, 9])).getD i none).isSome
          = true)
      ∧ (∀ i, ([5, 7, 9] : List Nat).length ≤ i →
          i < nextPowerOfTwo ([5, 7, 9] : List Nat).length →
          (nodesOf (NewTreeFromHashes exampleCombine [5, 7, 9])).getD i none = none)
      ∧ (∀ p, nextPowerOfTwo ([5, 7, 9] : List Nat).length ≤ p →
          p < (nodesOf (NewTreeFromHashes exampleCombine [5, 7, 9])).length →
          ((nodesOf (NewTreeFromHashes exampleCombine [5, 7, 9])).getD p none = none
            ↔ (nodesOf (NewTreeFromHashes exampleCombine [5, 7, 9])).getD
                (2 * (p - nextPowerOfTwo ([5, 7, 9] : List Nat).length)) none = none))
      ∧ ((nodesOf (NewTreeFromHashes exampleCombine [5, 7, 9])).getD
          ((nodesOf (NewTreeFromHashes exampleCombine [5, 7, 9])).length - 1)
          none).isSome = true) :=
  ⟨by decide, claim10_presence_invariant exampleCombine [5, 7, 9] (by decide)⟩

end SimpleMerkle
